import Mathlib

/-!
Verification of the pixel-level segmentation and compositing pipeline of
`src/main.py` (image-background-remover).

The embedding models:
- PixelBuffer (`Image`): a width times height grid of RGBA samples; the pixel
  grid is represented as a total function, with only coordinates below the
  stored width and height being meaningful.
- `detect_background_color` (src/main.py lines 236-269): border sampling and
  most-frequent-color selection.  PIL `getpixel` on an out-of-range coordinate
  raises IndexError, modelled as `none` propagating through the sampling loop.
  The Python dict of counts is modelled as an association list whose keys are
  in first-insertion order and whose values are the final counts, and the
  Python `max(items, key=count)` as a fold keeping the first item on ties.
- `remove_background_color` (lines 271-336): chroma-key masking and boundary
  refinement.  NumPy subtracts the reference tuple from the uint8 channels
  after promotion to a signed integer dtype, so channel differences are exact
  integers; the float64 mean comparison is modelled exactly over the rationals.
- `scale_foreground` (lines 168-212): bounding box, crop, scale, resize and
  centered paste.  Python float arithmetic on these small quantities is
  modelled over the rationals; `int()` is truncation toward zero and `//` is
  floor division.  PIL failure points (negative canvas size at `Image.new`,
  non-positive target size at `resize`) are modelled as `Except` errors.
  The LANCZOS resampling filter is floating-point library code whose pixel
  values no claim depends on; its output dimensions are modelled exactly and
  its pixel content is modelled by nearest-neighbor sampling as a stand-in.
-/

/-- One RGBA sample: four unsigned 8-bit channels of a pixel. -/
structure RGBA where
  r : Nat
  g : Nat
  b : Nat
  a : Nat
deriving DecidableEq

/-- A PixelBuffer: width, height, and the pixel grid.  The grid is a total
function; only coordinates with `x < width` and `y < height` are meaningful. -/
structure Image where
  width : Nat
  height : Nat
  pix : Nat → Nat → RGBA

/-- Build a concrete image from a row-major list of samples. -/
def mkImage (w h : Nat) (l : List RGBA) : Image :=
  { width := w, height := h, pix := fun x y => l.getD (y * w + x) ⟨0, 0, 0, 0⟩ }

/-- PIL `Image.getpixel`: returns the sample at an in-range coordinate and
raises IndexError (modelled as `none`) otherwise. -/
def getpixel (img : Image) (x y : Int) : Option RGBA :=
  if 0 ≤ x ∧ x < (img.width : Int) ∧ 0 ≤ y ∧ y < (img.height : Int) then
    some (img.pix x.toNat y.toNat)
  else
    none

/-- The configured `EDGE_SAMPLE_SIZE` of src/main.py (line 44). -/
def EDGE_SAMPLE_SIZE : Nat := 5

/-- The border coordinates sampled by `detect_background_color`, in the order
of the Python loops (lines 250-258): for each `x < s`, for each row `y`, the
left pixel `(x, y)` then the right pixel `(w - 1 - x, y)`; afterwards for each
`y < s`, for each column `x`, the top pixel `(x, y)` then the bottom pixel
`(x, h - 1 - y)`. -/
def edgeCoords (s w h : Nat) : List (Int × Int) :=
  ((List.range s).flatMap fun x =>
    (List.range h).flatMap fun y =>
      [((x : Int), (y : Int)), ((w : Int) - 1 - x, (y : Int))]) ++
  ((List.range s).flatMap fun y =>
    (List.range w).flatMap fun x =>
      [((x : Int), (y : Int)), ((x : Int), (h : Int) - 1 - y)])

/-- Sequentially read a list of coordinates with `getpixel`; the first
out-of-range access aborts the whole loop (IndexError). -/
def samplePixels (img : Image) : List (Int × Int) → Option (List RGBA)
  | [] => some []
  | c :: cs =>
    match getpixel img c.1 c.2 with
    | none => none
    | some p =>
      match samplePixels img cs with
      | none => none
      | some ps => some (p :: ps)

/-- Number of occurrences of a sample in a list. -/
def cnt (ps : List RGBA) (c : RGBA) : Nat :=
  ps.countP fun d => decide (d = c)

/-- The highest occurrence count over a sample list. -/
def maxCount (ps : List RGBA) : Nat :=
  (ps.map (cnt ps)).foldr max 0

/-- Fuel-driven recursion for `keyOrder`: the fuel only needs to dominate the
list length, which every recursive call preserves since `filter` never makes
a list longer. -/
def keyOrderAux : Nat → List RGBA → List RGBA
  | _, [] => []
  | 0, _ :: _ => []
  | fuel + 1, c :: cs => c :: keyOrderAux fuel (cs.filter fun d => decide (d ≠ c))

/-- The distinct samples of a list in order of first occurrence: the key order
of the Python counting dict after the loop of lines 262-266. -/
def keyOrder (l : List RGBA) : List RGBA :=
  keyOrderAux l.length l

/-- The Python dict `color_counts` after the counting loop: each distinct
sample in first-insertion order, paired with its total occurrence count. -/
def color_counts (ps : List RGBA) : List (RGBA × Nat) :=
  (keyOrder ps).map fun c => (c, cnt ps c)

/-- Python `max(items, key=count)`: fold keeping the current maximum and
replacing it only on a strictly greater count, so the first maximal item
wins ties. -/
def maxPair : RGBA × Nat → List (RGBA × Nat) → RGBA × Nat
  | b, [] => b
  | b, x :: xs => maxPair (if x.2 > b.2 then x else b) xs

/-- `max(color_counts.items(), key=lambda x: x[1])[0]` (line 268). -/
def background_color (ps : List RGBA) : Option RGBA :=
  match color_counts ps with
  | [] => none
  | b :: rest => some (maxPair b rest).1

/-- `detect_background_color` (lines 236-269), parameterized by the sample
width; `none` models the IndexError raised by an out-of-range `getpixel`. -/
def detect_background_color_core (s : Nat) (img : Image) : Option RGBA :=
  match samplePixels img (edgeCoords s img.width img.height) with
  | none => none
  | some ps => background_color ps

/-- `detect_background_color` with the configured sample width. -/
def detect_background_color (img : Image) : Option RGBA :=
  detect_background_color_core EDGE_SAMPLE_SIZE img

/-- The configured `COLOR_THRESHOLD` of src/main.py (line 45). -/
def COLOR_THRESHOLD : Int := 5

/-- The configured `BOUNDARY_DILATION_SIZE` of src/main.py (line 52). -/
def BOUNDARY_DILATION_SIZE : Nat := 10

/-- The configured `BOUNDARY_COLOR_THRESHOLD` of src/main.py (line 53). -/
def BOUNDARY_COLOR_THRESHOLD : ℚ := 10

/-- `np.abs(data[:, :, :3] - bg_color)` at one pixel (line 287): NumPy
promotes the uint8 channels and the Python int tuple to a signed integer
dtype before subtracting, so the three differences are exact integers. -/
def colorDiff (p : RGBA) (bg : Int × Int × Int) : Int × Int × Int :=
  (|(p.r : Int) - bg.1|, |(p.g : Int) - bg.2.1|, |(p.b : Int) - bg.2.2|)

/-- `is_background = np.all(color_diff <= COLOR_THRESHOLD, axis=2)` at one
pixel (line 288). -/
def is_background (img : Image) (bg : Int × Int × Int) (thr : Int) (x y : Nat) : Bool :=
  decide ((colorDiff (img.pix x y) bg).1 ≤ thr) &&
  decide ((colorDiff (img.pix x y) bg).2.1 ≤ thr) &&
  decide ((colorDiff (img.pix x y) bg).2.2 ≤ thr)

/-- `is_foreground = ~is_background` at one pixel (line 297). -/
def is_foreground (img : Image) (bg : Int × Int × Int) (thr : Int) (x y : Nat) : Bool :=
  ! is_background img bg thr x y

/-- `data[:, :, 3] = np.where(is_background, 0, 255)` at one pixel
(line 291): the alpha written by the chroma-key masking stage. -/
def maskStageAlpha (img : Image) (bg : Int × Int × Int) (thr : Int) (x y : Nat) : Nat :=
  if is_background img bg thr x y then 0 else 255

/-- Lookup in `foreground_padded` (line 304): the foreground mask extended by
`False` outside the image bounds (zero padding). -/
def fgPad (img : Image) (bg : Int × Int × Int) (thr : Int) (x y : Int) : Bool :=
  if 0 ≤ x ∧ x < (img.width : Int) ∧ 0 ≤ y ∧ y < (img.height : Int) then
    is_foreground img bg thr x.toNat y.toNat
  else
    false

/-- `boundary_mask` after the accumulation loop of lines 305-313 at one pixel:
for each `i, j` in the 3 by 3 window, skipping the center, OR in
`is_foreground & ~shifted` where `shifted[y][x] = foreground_padded[y+i][x+j]`,
that is the zero-padded foreground mask at `(x + j - 1, y + i - 1)`. -/
def boundary_mask (img : Image) (bg : Int × Int × Int) (thr : Int) (x y : Nat) : Bool :=
  is_foreground img bg thr x y &&
  ((List.range 3).any fun i =>
    (List.range 3).any fun j =>
      if i = 1 ∧ j = 1 then false
      else ! fgPad img bg thr ((x : Int) + j - 1) ((y : Int) + i - 1))

/-- `color_similarity = np.mean(color_diff, axis=2)` compared with the
boundary threshold at one pixel (lines 316-317); the float64 mean of three
small integers compared against an integer threshold is exact, modelled over
the rationals. -/
def boundary_color_mask (img : Image) (bg : Int × Int × Int) (bThr : ℚ) (x y : Nat) : Bool :=
  decide ((((colorDiff (img.pix x y) bg).1 +
            (colorDiff (img.pix x y) bg).2.1 +
            (colorDiff (img.pix x y) bg).2.2 : Int) : ℚ) / 3 ≤ bThr)

/-- Lookup in the zero-padded `boundary_mask` used by the dilation
(line 322). -/
def boundaryPad (img : Image) (bg : Int × Int × Int) (thr : Int) (x y : Int) : Bool :=
  if 0 ≤ x ∧ x < (img.width : Int) ∧ 0 ≤ y ∧ y < (img.height : Int) then
    boundary_mask img bg thr x.toNat y.toNat
  else
    false

/-- The dilated boundary mask (lines 320-327): when the dilation radius is
positive, `np.maximum.reduce` over all shifts of the padded mask inside the
square window, i.e. an OR over the Chebyshev ball of radius `R`; when the
radius is zero the mask is left as it is. -/
def dilated_boundary (img : Image) (bg : Int × Int × Int) (thr : Int) (R : Nat) (x y : Nat) : Bool :=
  if R > 0 then
    (List.range (2 * R + 1)).any fun i =>
      (List.range (2 * R + 1)).any fun j =>
        boundaryPad img bg thr ((x : Int) + j - R) ((y : Int) + i - R)
  else
    boundary_mask img bg thr x y

/-- `remove_background_color` (lines 271-336) with explicit thresholds: the
chroma-key masking stage writes a binary alpha (line 291), then the boundary
refinement re-transparentizes dilated-boundary foreground pixels whose mean
channel difference is within the boundary threshold (lines 330-334).  The
RGB channels are never written. -/
def remove_background_color_core (img : Image) (bg : Int × Int × Int)
    (thr : Int) (bThr : ℚ) (R : Nat) : Image :=
  { width := img.width, height := img.height,
    pix := fun x y =>
      { img.pix x y with
        a := if dilated_boundary img bg thr R x y &&
                boundary_color_mask img bg bThr x y &&
                is_foreground img bg thr x y
             then 0
             else maskStageAlpha img bg thr x y } }

/-- `remove_background_color` with the configured thresholds. -/
def remove_background_color (img : Image) (bg : Int × Int × Int) : Image :=
  remove_background_color_core img bg COLOR_THRESHOLD BOUNDARY_COLOR_THRESHOLD
    BOUNDARY_DILATION_SIZE

/-- The configured `DEFAULT_MARGIN_RATIO` of src/main.py (line 41). -/
def DEFAULT_MARGIN : ℚ := 1 / 10

/-- The in-bounds coordinates with nonzero alpha, row by row. -/
def opaquePoints (img : Image) : List (Nat × Nat) :=
  (List.range img.height).flatMap fun y =>
    (List.range img.width).filterMap fun x =>
      if (img.pix x y).a ≠ 0 then some (x, y) else none

/-- `get_foreground_bbox` (lines 153-166): PIL `alpha.getbbox()`, the minimal
rectangle `(left, upper, right, lower)` containing every nonzero-alpha pixel,
half-open on the right and lower edges, or `None` when the alpha channel is
zero everywhere. -/
def get_foreground_bbox (img : Image) : Option (Nat × Nat × Nat × Nat) :=
  match opaquePoints img with
  | [] => none
  | p :: ps =>
    some (ps.foldl (fun m q => min m q.1) p.1,
          ps.foldl (fun m q => min m q.2) p.2,
          ps.foldl (fun m q => max m q.1) p.1 + 1,
          ps.foldl (fun m q => max m q.2) p.2 + 1)

/-- PIL `image.crop((l, t, r, b))`: the `(r - l)` times `(b - t)` sub-buffer
whose pixel `(x, y)` is the source pixel `(l + x, t + y)`. -/
def cropImage (img : Image) (l t r b : Nat) : Image :=
  { width := r - l, height := b - t, pix := fun x y => img.pix (l + x) (t + y) }

/-- PIL `Image.new("RGBA", size, (0, 0, 0, 0))`: a fully transparent canvas. -/
def imageNew (w h : Nat) : Image :=
  { width := w, height := h, pix := fun _ _ => ⟨0, 0, 0, 0⟩ }

/-- Stand-in for PIL `resize` content: an image of exactly the requested
dimensions.  The LANCZOS resampling filter of line 207 is floating-point
library code; no claim verified here depends on the resampled channel values,
only on the output dimensions, so the content is filled by nearest-neighbor
sampling. -/
def resizeNearest (img : Image) (nw nh : Nat) : Image :=
  { width := nw, height := nh,
    pix := fun x y => img.pix (x * img.width / nw) (y * img.height / nh) }

/-- PIL `canvas.paste(fg, (ox, oy), fg)` (line 210): copy the foreground pixel
wherever its own alpha is nonzero, keep the canvas pixel elsewhere; the canvas
dimensions are unchanged. -/
def pasteCentered (canvas fg : Image) (ox oy : Int) : Image :=
  { width := canvas.width, height := canvas.height,
    pix := fun x y =>
      if 0 ≤ (x : Int) - ox ∧ (x : Int) - ox < (fg.width : Int) ∧
         0 ≤ (y : Int) - oy ∧ (y : Int) - oy < (fg.height : Int) ∧
         (fg.pix ((x : Int) - ox).toNat ((y : Int) - oy).toNat).a ≠ 0 then
        fg.pix ((x : Int) - ox).toNat ((y : Int) - oy).toNat
      else
        canvas.pix x y }

/-- Python `int()` on a rational value: truncation toward zero. -/
def int_trunc (q : ℚ) : Int :=
  if q < 0 then ⌈q⌉ else ⌊q⌋

/-- The scale factor of lines 198-201:
`min(orig_w * (1 - margin) / fg_w, orig_h * (1 - margin) / fg_h)`. -/
def fit_scale (mr : ℚ) (ow oh : Int) (fw fh : Nat) : ℚ :=
  min ((ow : ℚ) * (1 - mr) / fw) ((oh : ℚ) * (1 - mr) / fh)

/-- One resized dimension (lines 203-204): `int(fg_dim * scale)`. -/
def resized_dim (d : Nat) (s : ℚ) : Int :=
  int_trunc ((d : ℚ) * s)

/-- Failures surfaced by the compositing path.  `valueError` models the PIL
ValueError raised by `Image.new` on a negative size and by `resize` on a
non-positive target size.  `dimensionMismatch` is the distinct typed failure
named by the error-taxonomy claim; it is included so the claim is statable,
and no code path produces it. -/
inductive PilFailure where
  | valueError
  | dimensionMismatch
deriving DecidableEq

/-- The requested canvas width (line 180-182): the caller-supplied width when
present, else the source width. -/
def requestW (img : Image) (osz : Option (Int × Int)) : Int :=
  (osz.getD ((img.width : Int), (img.height : Int))).1

/-- The requested canvas height: the caller-supplied height when present,
else the source height. -/
def requestH (img : Image) (osz : Option (Int × Int)) : Int :=
  (osz.getD ((img.width : Int), (img.height : Int))).2

/-- The scale factor computed by `scale_foreground` for a given bounding
box. -/
def scale_of (img : Image) (mr : ℚ) (osz : Option (Int × Int)) (l t r b : Nat) : ℚ :=
  fit_scale mr (requestW img osz) (requestH img osz) (r - l) (b - t)

/-- `scale_foreground` (lines 168-212).  `Image.new` raises ValueError on a
negative requested size (checked before the bounding box, as in the source
order).  When no nonzero-alpha pixel exists the input image itself is returned
(line 189-191).  Otherwise the input is cropped to the bounding box, the
uniform scale factor is computed, and `resize` raises ValueError when a target
dimension is not positive; on success the resized foreground is pasted
centered on the fresh transparent canvas using integer floor-divided
offsets. -/
def scale_foreground (img : Image) (mr : ℚ) (osz : Option (Int × Int)) :
    Except PilFailure Image :=
  if requestW img osz < 0 ∨ requestH img osz < 0 then
    Except.error PilFailure.valueError
  else
    match get_foreground_bbox img with
    | none => Except.ok img
    | some (l, t, r, b) =>
      if resized_dim (r - l) (scale_of img mr osz l t r b) ≤ 0 ∨
         resized_dim (b - t) (scale_of img mr osz l t r b) ≤ 0 then
        Except.error PilFailure.valueError
      else
        Except.ok (pasteCentered
          (imageNew (requestW img osz).toNat (requestH img osz).toNat)
          (resizeNearest (cropImage img l t r b)
            (resized_dim (r - l) (scale_of img mr osz l t r b)).toNat
            (resized_dim (b - t) (scale_of img mr osz l t r b)).toNat)
          (Int.fdiv (requestW img osz - resized_dim (r - l) (scale_of img mr osz l t r b)) 2)
          (Int.fdiv (requestH img osz - resized_dim (b - t) (scale_of img mr osz l t r b)) 2))

/-- Whether a compositing run succeeded. -/
def isOkE (e : Except PilFailure Image) : Bool :=
  match e with
  | Except.ok _ => true
  | Except.error _ => false

/-- The dimensions of the buffer produced by a successful compositing run. -/
def okDims (e : Except PilFailure Image) : Option (Nat × Nat) :=
  match e with
  | Except.ok img => some (img.width, img.height)
  | Except.error _ => none

/-- Modelled from the spec wording for comparison with the code: the border
scan order claimed by the spec, namely all left columns top-to-bottom, then
all right columns, then all top rows, then all bottom rows (not the
interleaved order of the Python loops). -/
def edgeCoordsSpecOrder (s w h : Nat) : List (Int × Int) :=
  ((List.range s).flatMap fun x => (List.range h).map fun y => ((x : Int), (y : Int))) ++
  ((List.range s).flatMap fun x => (List.range h).map fun y => ((w : Int) - 1 - x, (y : Int))) ++
  ((List.range s).flatMap fun y => (List.range w).map fun x => ((x : Int), (y : Int))) ++
  ((List.range s).flatMap fun y => (List.range w).map fun x => ((x : Int), (h : Int) - 1 - y))

/-- Modelled from the spec wording for comparison with the code: the sampler
with the scan order the spec claims, identical counting and tie-breaking. -/
def detect_background_color_specorder (s : Nat) (img : Image) : Option RGBA :=
  match samplePixels img (edgeCoordsSpecOrder s img.width img.height) with
  | none => none
  | some ps => background_color ps

/-- Two buffers agree on their dimensions and on the RGB channels of every
pixel (their alpha channels may differ arbitrarily). -/
def sameRGB (img img2 : Image) : Prop :=
  img.width = img2.width ∧ img.height = img2.height ∧
  ∀ x y : Nat,
    (img.pix x y).r = (img2.pix x y).r ∧
    (img.pix x y).g = (img2.pix x y).g ∧
    (img.pix x y).b = (img2.pix x y).b

/-- A sample used by the tie-break counterexample. -/
def cC : RGBA := ⟨0, 0, 0, 255⟩

/-- A sample used by the tie-break counterexample. -/
def cA : RGBA := ⟨1, 1, 1, 255⟩

/-- A sample used by the tie-break counterexample. -/
def cB : RGBA := ⟨2, 2, 2, 255⟩

/-- A 5 by 5 image in which the colors `cA` and `cB` are tied for the highest
border count (48 samples each) while `cC` occurs 4 times.  In the scan order
of the Python loops the first samples are `(0,0)` (color `cC`), then `(4,0)`
(color `cA`), then `(0,1)` (color `cB`), so the code breaks the tie for `cA`;
in the left-columns-then-right-columns order claimed by the spec, `(0,1)`
(color `cB`) is reached before any `cA` pixel. -/
def c6Img : Image := mkImage 5 5
  [cC, cA, cA, cA, cA,
   cB, cA, cA, cA, cA,
   cA, cA, cA, cA, cB,
   cB, cB, cB, cB, cB,
   cB, cB, cB, cB, cB]

/-- A 1 by 1 image: both dimensions are smaller than the configured sample
width, so the border sampling loop reads coordinate `(1, 0)`, which is out of
bounds. -/
def c7SmallImg : Image := ⟨1, 1, fun _ _ => ⟨3, 3, 3, 255⟩⟩

/-- A 6 by 6 uniform image: both dimensions are at least the sample width 5
but smaller than twice the sample width, so the border regions overlap. -/
def c7Img : Image := ⟨6, 6, fun _ _ => ⟨7, 7, 7, 255⟩⟩

/-- A 1 by 1 fully transparent image: its bounding box is `None`, so the
compositor returns it unmodified whatever output size is requested. -/
def c3Img : Image := ⟨1, 1, fun _ _ => ⟨9, 9, 9, 0⟩⟩

/-- A 2 by 2 fully opaque image used to witness the amended compositing
dimension guarantee. -/
def c3wImg : Image := ⟨2, 2, fun _ _ => ⟨5, 5, 5, 255⟩⟩

/-- A 1 by 1 fully opaque image used for the canvas-size error claims. -/
def c9Img : Image := ⟨1, 1, fun _ _ => ⟨5, 5, 5, 255⟩⟩

/-- A 1 by 1 fully transparent image whose color is far from white. -/
def c10ImgA : Image := ⟨1, 1, fun _ _ => ⟨9, 9, 9, 0⟩⟩

/-- The same image as `c10ImgA` except fully opaque. -/
def c10ImgB : Image := ⟨1, 1, fun _ _ => ⟨9, 9, 9, 255⟩⟩

/-! Helper lemmas about the most-frequent-color selection. -/

/-- Elements dropped by a filter that cannot satisfy the search predicate do
not change the result of `find?`. -/
theorem find?_filter_of_false (p q : RGBA → Bool) (l : List RGBA)
    (h : ∀ a, q a = false → p a = false) :
    (l.filter q).find? p = l.find? p := by
  induction l with
  | nil => rfl
  | cons c cs ih =>
    by_cases hq : q c = true
    · rw [List.filter_cons_of_pos hq]
      by_cases hp : p c = true
      · simp [List.find?, hp]
      · simp only [List.find?, hp]
        simpa [Bool.not_eq_true] using ih
    · have hq' : q c = false := by simpa using hq
      rw [List.filter_cons_of_neg (by simp [hq'])]
      have hp : p c = false := h c hq'
      simp only [List.find?, hp]
      exact ih

/-- `find?` over the key order of a list equals `find?` over the list: the
distinct keys appear in order of first occurrence. -/
theorem find?_keyOrderAux (p : RGBA → Bool) :
    ∀ (fuel : Nat) (l : List RGBA), l.length ≤ fuel →
      (keyOrderAux fuel l).find? p = l.find? p := by
  intro fuel
  induction fuel with
  | zero =>
    intro l hl
    rw [List.length_eq_zero.mp (Nat.le_zero.mp hl)]
    rfl
  | succ n ih =>
    intro l hl
    cases l with
    | nil => rfl
    | cons c cs =>
      show (c :: keyOrderAux n (cs.filter fun d => decide (d ≠ c))).find? p = (c :: cs).find? p
      rw [List.find?_cons, List.find?_cons]
      cases hp : p c with
      | true => rfl
      | false =>
        rw [ih _ (le_trans (List.length_filter_le _ _) (Nat.le_of_succ_le_succ hl))]
        exact find?_filter_of_false p _ cs fun a ha => by
          have : a = c := by simpa using ha
          rw [this]; exact hp

/-- The key order of a list has exactly the elements of the list. -/
theorem mem_keyOrderAux (a : RGBA) :
    ∀ (fuel : Nat) (l : List RGBA), l.length ≤ fuel →
      (a ∈ keyOrderAux fuel l ↔ a ∈ l) := by
  intro fuel
  induction fuel with
  | zero =>
    intro l hl
    rw [List.length_eq_zero.mp (Nat.le_zero.mp hl)]
    exact Iff.rfl
  | succ n ih =>
    intro l hl
    cases l with
    | nil => exact Iff.rfl
    | cons c cs =>
      show a ∈ c :: keyOrderAux n (cs.filter fun d => decide (d ≠ c)) ↔ a ∈ c :: cs
      rw [List.mem_cons, List.mem_cons,
        ih _ (le_trans (List.length_filter_le _ _) (Nat.le_of_succ_le_succ hl))]
      constructor
      · rintro (h | h)
        · exact Or.inl h
        · exact Or.inr (List.mem_filter.mp h).1
      · rintro (h | h)
        · exact Or.inl h
        · by_cases hac : a = c
          · exact Or.inl hac
          · exact Or.inr (List.mem_filter.mpr ⟨h, by simpa using hac⟩)

/-- The result of the max fold is one of the items. -/
theorem maxPair_mem : ∀ (l : List (RGBA × Nat)) (b : RGBA × Nat),
    maxPair b l ∈ b :: l := by
  intro l
  induction l with
  | nil => intro b; exact List.mem_singleton.mpr rfl
  | cons x xs ih =>
    intro b
    show maxPair (if x.2 > b.2 then x else b) xs ∈ b :: x :: xs
    rcases List.mem_cons.mp (ih (if x.2 > b.2 then x else b)) with h | h
    · rw [h]
      split
      · exact List.mem_cons_of_mem _ (List.mem_cons_self _ _)
      · exact List.mem_cons_self _ _
    · exact List.mem_cons_of_mem _ (List.mem_cons_of_mem _ h)

/-- Every item count is bounded by the count of the max fold result. -/
theorem maxPair_le : ∀ (l : List (RGBA × Nat)) (b : RGBA × Nat),
    ∀ x ∈ b :: l, x.2 ≤ (maxPair b l).2 := by
  intro l
  induction l with
  | nil =>
    intro b x hx
    rw [List.mem_singleton.mp hx]
    exact le_refl _
  | cons y ys ih =>
    intro b x hx
    show x.2 ≤ (maxPair (if y.2 > b.2 then y else b) ys).2
    have hb : b.2 ≤ (if y.2 > b.2 then y else b).2 := by
      split
      · omega
      · exact le_refl _
    have hy : y.2 ≤ (if y.2 > b.2 then y else b).2 := by
      split
      · exact le_refl _
      · omega
    have hm := ih (if y.2 > b.2 then y else b)
    rcases List.mem_cons.mp hx with h | h
    · exact le_trans (h ▸ hb) (hm _ (List.mem_cons_self _ _))
    · rcases List.mem_cons.mp h with h2 | h2
      · exact le_trans (h2 ▸ hy) (hm _ (List.mem_cons_self _ _))
      · exact hm x (List.mem_cons_of_mem _ h2)

/-- The max fold result is the first item whose count reaches the maximum:
items before it have strictly smaller counts. -/
theorem find?_maxPair : ∀ (l : List (RGBA × Nat)) (b : RGBA × Nat),
    (b :: l).find? (fun x => decide ((maxPair b l).2 ≤ x.2)) = some (maxPair b l) := by
  intro l
  induction l with
  | nil =>
    intro b
    simp [maxPair, List.find?]
  | cons y ys ih =>
    intro b
    by_cases hyb : y.2 > b.2
    · have hstep : maxPair b (y :: ys) = maxPair y ys := by
        show maxPair (if y.2 > b.2 then y else b) ys = maxPair y ys
        rw [if_pos hyb]
      have hy2 : y.2 ≤ (maxPair y ys).2 := maxPair_le ys y _ (List.mem_cons_self _ _)
      have hb : decide ((maxPair y ys).2 ≤ b.2) = false := by
        simp only [decide_eq_false_iff_not, not_le]
        omega
      rw [hstep, List.find?_cons]
      simp only [hb]
      exact ih y
    · have hstep : maxPair b (y :: ys) = maxPair b ys := by
        show maxPair (if y.2 > b.2 then y else b) ys = maxPair b ys
        rw [if_neg hyb]
      have hyb' : y.2 ≤ b.2 := by omega
      rw [hstep]
      have ihb := ih b
      rw [List.find?_cons] at ihb
      cases hqb : decide ((maxPair b ys).2 ≤ b.2) with
      | true =>
        simp only [hqb] at ihb
        have hbeq : b = maxPair b ys := Option.some.inj ihb
        rw [List.find?_cons]
        simp only [hqb]
        rw [← hbeq]
      | false =>
        simp only [hqb] at ihb
        have hlt : b.2 < (maxPair b ys).2 := by
          have := of_decide_eq_false hqb
          omega
        have hqy : decide ((maxPair b ys).2 ≤ y.2) = false := by
          simp only [decide_eq_false_iff_not, not_le]
          omega
        rw [List.find?_cons]
        simp only [hqb]
        rw [List.find?_cons]
        simp only [hqy]
        exact ihb

/-- Pointwise equal predicates on the members give the same `find?`. -/
theorem find?_congruence (p q : RGBA → Bool) :
    ∀ l : List RGBA, (∀ a ∈ l, p a = q a) → l.find? p = l.find? q := by
  intro l
  induction l with
  | nil => intro _; rfl
  | cons c cs ih =>
    intro h
    rw [List.find?_cons, List.find?_cons, h c (List.mem_cons_self _ _)]
    split
    · rfl
    · exact ih fun a ha => h a (List.mem_cons_of_mem _ ha)

/-- Every member of a list of naturals is bounded by the max fold. -/
theorem le_foldr_max : ∀ (l : List Nat) (a : Nat), a ∈ l → a ≤ l.foldr max 0 := by
  intro l
  induction l with
  | nil => intro a ha; cases ha
  | cons x xs ih =>
    intro a ha
    rcases List.mem_cons.mp ha with h | h
    · rw [h]; exact le_max_left _ _
    · exact le_trans (ih a h) (le_max_right _ _)

/-- The max fold of a list of naturals is bounded by any common bound. -/
theorem foldr_max_le : ∀ (l : List Nat) (m : Nat), (∀ a ∈ l, a ≤ m) → l.foldr max 0 ≤ m := by
  intro l
  induction l with
  | nil => intro m _; exact Nat.zero_le m
  | cons x xs ih =>
    intro m h
    exact max_le (h x (List.mem_cons_self _ _)) (ih m fun a ha => h a (List.mem_cons_of_mem _ ha))

/-- The color returned by the counting dict and `max` is the first sample in
scan order whose occurrence count is the highest. -/
theorem background_color_spec (ps : List RGBA) :
    background_color ps = ps.find? fun c => decide (cnt ps c = maxCount ps) := by
  cases hps : ps with
  | nil => rfl
  | cons c cs =>
    have hko : keyOrder (c :: cs) = c :: keyOrderAux cs.length (cs.filter fun d => decide (d ≠ c)) := rfl
    set rest := keyOrderAux cs.length (cs.filter fun d => decide (d ≠ c)) with hrest
    have hcc : color_counts (c :: cs) =
        (c, cnt (c :: cs) c) :: rest.map (fun k => (k, cnt (c :: cs) k)) := by
      unfold color_counts
      rw [hko]
      rfl
    set f : RGBA → RGBA × Nat := fun k => (k, cnt (c :: cs) k) with hf
    set r := maxPair (c, cnt (c :: cs) c) (rest.map f) with hr
    have hbc : background_color (c :: cs) = some r.1 := by
      unfold background_color
      rw [hcc]
    -- the result is one of the items, hence a key with its own count
    have hmem : r ∈ (c :: rest).map f := by
      have := maxPair_mem (rest.map f) (c, cnt (c :: cs) c)
      simpa [hf] using this
    obtain ⟨k, hk, hfk⟩ := List.mem_map.mp hmem
    have hkps : k ∈ c :: cs := by
      have hlen : (c :: cs).length ≤ cs.length + 1 := by simp
      have := (mem_keyOrderAux k (cs.length + 1) (c :: cs) (by simp)).mp
      apply this
      show k ∈ keyOrderAux (c :: cs).length (c :: cs)
      have : (c :: cs).length = cs.length + 1 := rfl
      rw [this]
      show k ∈ c :: keyOrderAux cs.length (cs.filter fun d => decide (d ≠ c))
      exact hk
    have hr1 : r.1 = k := by rw [← hfk]
    have hr2 : r.2 = cnt (c :: cs) k := by rw [← hfk]
    -- every key of the dict is a sample and vice versa
    have hmemkeys : ∀ d, d ∈ c :: cs → d ∈ c :: rest := by
      intro d hd
      have : (c :: cs).length = cs.length + 1 := rfl
      have h2 := (mem_keyOrderAux d (cs.length + 1) (c :: cs) (by simp)).mpr hd
      rw [show cs.length + 1 = (c :: cs).length from rfl] at h2
      exact h2
    -- the count of the result equals the maximum count
    have hle : ∀ d, d ∈ c :: cs → cnt (c :: cs) d ≤ r.2 := by
      intro d hd
      have hdk : d ∈ c :: rest := hmemkeys d hd
      have : f d ∈ (c :: rest).map f := List.mem_map_of_mem f hdk
      have h2 := maxPair_le (rest.map f) (c, cnt (c :: cs) c)
      have h3 : (f d).2 ≤ r.2 := by
        apply h2
        simpa [hf] using this
      simpa [hf] using h3
    have hmaxeq : maxCount (c :: cs) = r.2 := by
      apply le_antisymm
      · apply foldr_max_le
        intro a ha
        obtain ⟨d, hd, hda⟩ := List.mem_map.mp ha
        rw [← hda]
        exact hle d hd
      · rw [hr2]
        apply le_foldr_max
        exact List.mem_map_of_mem _ hkps
    -- identify the two find? computations
    have hfind1 : ((c :: cs).find? fun d => decide (cnt (c :: cs) d = maxCount (c :: cs))) =
        ((c :: cs).find? fun d => decide (r.2 ≤ cnt (c :: cs) d)) := by
      apply find?_congruence
      intro a ha
      have hamax : cnt (c :: cs) a ≤ r.2 := hle a ha
      by_cases hcase : cnt (c :: cs) a = maxCount (c :: cs)
      · rw [decide_eq_true (by omega : r.2 ≤ cnt (c :: cs) a), decide_eq_true hcase]
      · have : ¬ r.2 ≤ cnt (c :: cs) a := by omega
        rw [decide_eq_false hcase, decide_eq_false this]
    have hfind2 : ((c :: cs).find? fun d => decide (r.2 ≤ cnt (c :: cs) d)) =
        ((c :: rest).find? fun d => decide (r.2 ≤ cnt (c :: cs) d)) := by
      have := find?_keyOrderAux (fun d => decide (r.2 ≤ cnt (c :: cs) d))
        (cs.length + 1) (c :: cs) (by simp)
      rw [show cs.length + 1 = (c :: cs).length from rfl] at this
      exact this.symm
    have hfind3 : ((c :: rest).map f).find? (fun x => decide (r.2 ≤ x.2)) = some r := by
      have := find?_maxPair (rest.map f) (c, cnt (c :: cs) c)
      simpa [hf] using this
    have hfind4 : ((c :: rest).find? fun d => decide (r.2 ≤ cnt (c :: cs) d)) = some k := by
      have hmapped : ((c :: rest).map f).find? (fun x => decide (r.2 ≤ x.2)) =
          ((c :: rest).find? ((fun x => decide (r.2 ≤ x.2)) ∘ f)).map f :=
        List.find?_map f (c :: rest)
      rw [hfind3] at hmapped
      have hcomp : ((fun x => decide (r.2 ≤ x.2)) ∘ f) = fun d => decide (r.2 ≤ cnt (c :: cs) d) := rfl
      rw [hcomp] at hmapped
      obtain ⟨w, hw, hwf⟩ := Option.map_eq_some'.mp hmapped.symm
      have hwk : w = k := by
        have : (f w).1 = r.1 := by rw [hwf]
        rw [hr1] at this
        simpa [hf] using this
      rw [hw, hwk]
    rw [hbc, hfind1, hfind2, hfind4, hr1]

/-- Claim C6 (amended): the sampler returns the first sampled border pixel,
in the actual scan order of the code (left and right pixels interleaved per
row, then top and bottom pixels interleaved per column), whose occurrence
count among all sampled border pixels is the highest; equivalently, the color
with the highest count, ties broken by first occurrence in that interleaved
order. -/
theorem c6_tiebreak_scan_order (s : Nat) (img : Image) :
    detect_background_color_core s img =
      (samplePixels img (edgeCoords s img.width img.height)).bind
        fun ps => ps.find? fun c => decide (cnt ps c = maxCount ps) := by
  unfold detect_background_color_core
  cases samplePixels img (edgeCoords s img.width img.height) with
  | none => rfl
  | some ps =>
    show background_color ps = (Option.some ps).bind _
    rw [Option.some_bind]
    exact background_color_spec ps

/-- Claim C6 (counterexample): on `c6Img` the colors `cA` and `cB` are tied
for the highest border count, the code returns `cA` (first encountered in the
interleaved scan order), while the left-columns-then-right-columns scan order
stated by the claim would return `cB`. -/
theorem c6_counterexample :
    detect_background_color_core 5 c6Img = some cA ∧
    detect_background_color_specorder 5 c6Img = some cB ∧
    cA ≠ cB := by
  refine ⟨by decide, by decide, by decide⟩

/-- Every coordinate sampled by the border loops is in bounds as soon as both
image dimensions are at least the sample width. -/
theorem edgeCoords_mem_bounds (s w h : Nat) (hw : s ≤ w) (hh : s ≤ h) :
    ∀ c ∈ edgeCoords s w h,
      0 ≤ c.1 ∧ c.1 < (w : Int) ∧ 0 ≤ c.2 ∧ c.2 < (h : Int) := by
  intro c hc
  unfold edgeCoords at hc
  rcases List.mem_append.mp hc with hc1 | hc2
  · obtain ⟨x, hx, y, hy, hmem⟩ := by
      simpa only [List.mem_flatMap, List.mem_range] using hc1
    rcases List.mem_cons.mp hmem with hcl | hcr
    · subst hcl
      refine ⟨by positivity, ?_, by positivity, ?_⟩ <;> simp <;> omega
    · rcases List.mem_singleton.mp hcr with hcl2
      subst hcl2
      refine ⟨?_, ?_, by positivity, ?_⟩ <;> simp <;> omega
  · obtain ⟨y, hy, x, hx, hmem⟩ := by
      simpa only [List.mem_flatMap, List.mem_range] using hc2
    rcases List.mem_cons.mp hmem with hcl | hcr
    · subst hcl
      refine ⟨by positivity, ?_, by positivity, ?_⟩ <;> simp <;> omega
    · rcases List.mem_singleton.mp hcr with hcl2
      subst hcl2
      refine ⟨by positivity, ?_, ?_, ?_⟩ <;> simp <;> omega

/-- When every coordinate is in bounds the sampling loop succeeds and returns
one sample per coordinate. -/
theorem samplePixels_some (img : Image) :
    ∀ cs : List (Int × Int),
      (∀ c ∈ cs, 0 ≤ c.1 ∧ c.1 < (img.width : Int) ∧ 0 ≤ c.2 ∧ c.2 < (img.height : Int)) →
      ∃ ps, samplePixels img cs = some ps ∧ ps.length = cs.length := by
  intro cs
  induction cs with
  | nil => intro _; exact ⟨[], rfl, rfl⟩
  | cons c cs2 ih =>
    intro h
    obtain ⟨ps, hps, hlen⟩ := ih fun d hd => h d (List.mem_cons_of_mem _ hd)
    have hcb := h c (List.mem_cons_self _ _)
    refine ⟨img.pix c.1.toNat c.2.toNat :: ps, ?_, by simp [hlen]⟩
    show (match getpixel img c.1 c.2 with
      | none => none
      | some p => match samplePixels img cs2 with
        | none => none
        | some ps => some (p :: ps)) = _
    rw [getpixel, if_pos hcb, hps]

/-- The dict-and-max selection yields a color whenever there is at least one
sample. -/
theorem background_color_some (ps : List RGBA) (h : ps ≠ []) :
    (background_color ps).isSome = true := by
  cases ps with
  | nil => exact absurd rfl h
  | cons c cs => rfl

/-- Claim C7 (amended): if both image dimensions are at least the sample
width `s` — in particular for every image smaller than `2s` but at least `s`
in each dimension, where the border regions overlap — every sampled
coordinate is in bounds and the sampler returns a color.  (When a dimension
is smaller than `s` the loop does reach an out-of-bounds coordinate and the
call fails; see the counterexample.) -/
theorem c7_overlap_safe (s : Nat) (img : Image) (hs : 0 < s)
    (hw : s ≤ img.width) (hh : s ≤ img.height) :
    (∀ c ∈ edgeCoords s img.width img.height,
      0 ≤ c.1 ∧ c.1 < (img.width : Int) ∧ 0 ≤ c.2 ∧ c.2 < (img.height : Int)) ∧
    (detect_background_color_core s img).isSome = true := by
  have hbounds := edgeCoords_mem_bounds s img.width img.height hw hh
  refine ⟨hbounds, ?_⟩
  obtain ⟨ps, hps, hlen⟩ := samplePixels_some img _ hbounds
  have hmem0 : ((0 : Int), (0 : Int)) ∈ edgeCoords s img.width img.height := by
    unfold edgeCoords
    apply List.mem_append.mpr
    apply Or.inl
    apply List.mem_flatMap.mpr
    refine ⟨0, List.mem_range.mpr hs, ?_⟩
    apply List.mem_flatMap.mpr
    refine ⟨0, List.mem_range.mpr (lt_of_lt_of_le hs hh), ?_⟩
    simp
  have hne : edgeCoords s img.width img.height ≠ [] := List.ne_nil_of_mem hmem0
  have hpos : 0 < (edgeCoords s img.width img.height).length := List.length_pos.mpr hne
  have hpsne : ps ≠ [] := by
    apply List.ne_nil_of_length_pos
    omega
  unfold detect_background_color_core
  rw [hps]
  exact background_color_some ps hpsne

/-- Claim C7 (witness for the amended theorem): a 6 by 6 image is smaller
than twice the sample width 5 in both dimensions, yet sampling succeeds. -/
theorem c7_overlap_safe_witness :
    (detect_background_color_core 5 c7Img).isSome = true :=
  (c7_overlap_safe 5 c7Img (by decide) (by decide) (by decide)).2

/-- Claim C7 (counterexample): on a 1 by 1 image the border loop reaches the
out-of-bounds coordinate `(1, 0)` and the sampler fails (IndexError in the
source) instead of returning a color. -/
theorem c7_counterexample :
    detect_background_color_core 5 c7SmallImg = none ∧
    ((1 : Int), (0 : Int)) ∈ edgeCoords 5 c7SmallImg.width c7SmallImg.height ∧
    getpixel c7SmallImg 1 0 = none := by
  refine ⟨by decide, by decide, by decide⟩

/-- Claim C1: the chroma-key masking stage classifies a pixel as background
iff the absolute difference to the reference is at most the threshold in all
three RGB channels (per-channel uniform bound, not Euclidean), and it writes
alpha 0 to exactly the background pixels and alpha 255 to all others. -/
theorem c1_mask_classification (img : Image) (bg : Int × Int × Int) (thr : Int) (x y : Nat) :
    (is_background img bg thr x y = true ↔
      (|((img.pix x y).r : Int) - bg.1| ≤ thr ∧
       |((img.pix x y).g : Int) - bg.2.1| ≤ thr ∧
       |((img.pix x y).b : Int) - bg.2.2| ≤ thr)) ∧
    (maskStageAlpha img bg thr x y = 0 ↔ is_background img bg thr x y = true) ∧
    (maskStageAlpha img bg thr x y = 255 ↔ is_background img bg thr x y = false) := by
  refine ⟨?_, ?_, ?_⟩
  · simp [is_background, colorDiff, and_assoc]
  · unfold maskStageAlpha
    split
    · simp [*]
    · simp [*]
  · unfold maskStageAlpha
    split
    · simp [*]
    · simp [*]

/-- The padded foreground lookup is false exactly when the coordinate is out
of bounds or the in-bounds pixel is classified background. -/
theorem fgPad_false_iff (img : Image) (bg : Int × Int × Int) (thr : Int) (x y : Int) :
    (! fgPad img bg thr x y) = true ↔
      ((x < 0 ∨ (img.width : Int) ≤ x ∨ y < 0 ∨ (img.height : Int) ≤ y) ∨
        is_background img bg thr x.toNat y.toNat = true) := by
  unfold fgPad
  split
  case isTrue h =>
    obtain ⟨h1, h2, h3, h4⟩ := h
    simp only [is_foreground, Bool.not_not]
    constructor
    · intro hb
      exact Or.inr hb
    · rintro (hout | hb)
      · exfalso
        rcases hout with h5 | h5 | h5 | h5 <;> omega
      · exact hb
  case isFalse h =>
    refine iff_of_true rfl (Or.inl ?_)
    simp only [not_and_or, not_le, not_lt] at h
    rcases h with h5 | h5 | h5 | h5
    · exact Or.inl h5
    · exact Or.inr (Or.inl h5)
    · exact Or.inr (Or.inr (Or.inl h5))
    · exact Or.inr (Or.inr (Or.inr h5))

/-- Claim C2: a pixel is marked as boundary iff it is foreground and at least
one of its 8 grid neighbors (offsets with Chebyshev distance 1) is background,
where a neighbor position outside the image bounds counts as non-foreground
(zero-padded lookup, no wrap-around and no error at the edges). -/
theorem c2_boundary_iff (img : Image) (bg : Int × Int × Int) (thr : Int) (x y : Nat) :
    boundary_mask img bg thr x y = true ↔
      (is_foreground img bg thr x y = true ∧
        ∃ dx dy : Int, dx.natAbs ≤ 1 ∧ dy.natAbs ≤ 1 ∧ ¬(dx = 0 ∧ dy = 0) ∧
          (((x : Int) + dx < 0 ∨ (img.width : Int) ≤ (x : Int) + dx ∨
            (y : Int) + dy < 0 ∨ (img.height : Int) ≤ (y : Int) + dy) ∨
           is_background img bg thr ((x : Int) + dx).toNat ((y : Int) + dy).toNat = true)) := by
  unfold boundary_mask
  rw [Bool.and_eq_true]
  have inner : ∀ dx2 dy2 : Int,
      ((! fgPad img bg thr ((x : Int) + dx2) ((y : Int) + dy2)) = true ↔
        (((x : Int) + dx2 < 0 ∨ (img.width : Int) ≤ (x : Int) + dx2 ∨
          (y : Int) + dy2 < 0 ∨ (img.height : Int) ≤ (y : Int) + dy2) ∨
         is_background img bg thr ((x : Int) + dx2).toNat ((y : Int) + dy2).toNat = true)) :=
    fun dx2 dy2 => fgPad_false_iff img bg thr _ _
  constructor
  · rintro ⟨hfg, hany⟩
    refine ⟨hfg, ?_⟩
    rw [List.any_eq_true] at hany
    obtain ⟨i, hi, hrow⟩ := hany
    rw [List.any_eq_true] at hrow
    obtain ⟨j, hj, hcond⟩ := hrow
    rw [List.mem_range] at hi
    rw [List.mem_range] at hj
    by_cases hij : i = 1 ∧ j = 1
    · rw [if_pos hij] at hcond
      simp at hcond
    · rw [if_neg hij] at hcond
      refine ⟨(j : Int) - 1, (i : Int) - 1, by omega, by omega, ?_, ?_⟩
      · rintro ⟨hdx, hdy⟩
        exact hij ⟨by omega, by omega⟩
      · rw [show (x : Int) + (j : Int) - 1 = (x : Int) + ((j : Int) - 1) from by ring,
            show (y : Int) + (i : Int) - 1 = (y : Int) + ((i : Int) - 1) from by ring] at hcond
        exact (inner _ _).mp hcond
  · rintro ⟨hfg, dx, dy, hdx, hdy, hne, hcond⟩
    refine ⟨hfg, ?_⟩
    rw [List.any_eq_true]
    refine ⟨(dy + 1).toNat, List.mem_range.mpr (by omega), ?_⟩
    rw [List.any_eq_true]
    refine ⟨(dx + 1).toNat, List.mem_range.mpr (by omega), ?_⟩
    have hji : ¬((dy + 1).toNat = 1 ∧ (dx + 1).toNat = 1) := by
      rintro ⟨h1, h2⟩
      exact hne ⟨by omega, by omega⟩
    rw [if_neg hji]
    have ej : (((dx + 1).toNat : Nat) : Int) = dx + 1 := by omega
    have ei : (((dy + 1).toNat : Nat) : Int) = dy + 1 := by omega
    rw [show (x : Int) + (((dx + 1).toNat : Nat) : Int) - 1 = (x : Int) + dx from by
          rw [ej]; ring,
        show (y : Int) + (((dy + 1).toNat : Nat) : Int) - 1 = (y : Int) + dy from by
          rw [ei]; ring]
    exact (inner dx dy).mpr hcond

/-- Claim C5: after the local masking path (chroma-key masking followed by
boundary refinement), every alpha value in the buffer is 0 or 255. -/
theorem c5_alpha_binary (img : Image) (bg : Int × Int × Int) (thr : Int)
    (bThr : ℚ) (R : Nat) (x y : Nat) :
    ((remove_background_color_core img bg thr bThr R).pix x y).a = 0 ∨
    ((remove_background_color_core img bg thr bThr R).pix x y).a = 255 := by
  have e : ((remove_background_color_core img bg thr bThr R).pix x y).a =
      if dilated_boundary img bg thr R x y && boundary_color_mask img bg bThr x y &&
         is_foreground img bg thr x y
      then 0
      else maskStageAlpha img bg thr x y := rfl
  rw [e]
  split
  · exact Or.inl rfl
  · unfold maskStageAlpha
    split
    · exact Or.inl rfl
    · exact Or.inr rfl

/-- Claim C8: running the combined chroma-key masking plus boundary
refinement a second time, with the same reference color and thresholds, on a
buffer it has already produced leaves that buffer unchanged: the composition
of the masking stage with itself equals a single application.  (The alpha it
writes is a function of the RGB channels only, and it never writes the RGB
channels.) -/
theorem c8_idempotent (img : Image) (bg : Int × Int × Int) (thr : Int)
    (bThr : ℚ) (R : Nat) :
    remove_background_color_core (remove_background_color_core img bg thr bThr R) bg thr bThr R =
      remove_background_color_core img bg thr bThr R := rfl

/-- The channel differences only read the RGB channels. -/
theorem colorDiff_congr (img img2 : Image) (h : sameRGB img img2)
    (bg : Int × Int × Int) :
    ∀ x y : Nat, colorDiff (img.pix x y) bg = colorDiff (img2.pix x y) bg := by
  intro x y
  obtain ⟨hr, hg, hb⟩ := h.2.2 x y
  unfold colorDiff
  rw [hr, hg, hb]

/-- The background mask only reads the RGB channels. -/
theorem is_background_congr (img img2 : Image) (h : sameRGB img img2)
    (bg : Int × Int × Int) (thr : Int) :
    ∀ x y : Nat, is_background img bg thr x y = is_background img2 bg thr x y := by
  intro x y
  unfold is_background
  rw [colorDiff_congr img img2 h bg x y]

/-- The foreground mask only reads the RGB channels. -/
theorem is_foreground_congr (img img2 : Image) (h : sameRGB img img2)
    (bg : Int × Int × Int) (thr : Int) :
    ∀ x y : Nat, is_foreground img bg thr x y = is_foreground img2 bg thr x y := by
  intro x y
  unfold is_foreground
  rw [is_background_congr img img2 h bg thr x y]

/-- The padded foreground lookup only reads the RGB channels and the
dimensions. -/
theorem fgPad_congr (img img2 : Image) (h : sameRGB img img2)
    (bg : Int × Int × Int) (thr : Int) :
    ∀ x y : Int, fgPad img bg thr x y = fgPad img2 bg thr x y := by
  intro x y
  unfold fgPad
  rw [h.1, h.2.1]
  split
  · exact is_foreground_congr img img2 h bg thr _ _
  · rfl

/-- The boundary mask only reads the RGB channels and the dimensions. -/
theorem boundary_mask_congr (img img2 : Image) (h : sameRGB img img2)
    (bg : Int × Int × Int) (thr : Int) :
    ∀ x y : Nat, boundary_mask img bg thr x y = boundary_mask img2 bg thr x y := by
  intro x y
  unfold boundary_mask
  simp only [is_foreground_congr img img2 h bg thr, fgPad_congr img img2 h bg thr]

/-- The padded boundary lookup only reads the RGB channels and the
dimensions. -/
theorem boundaryPad_congr (img img2 : Image) (h : sameRGB img img2)
    (bg : Int × Int × Int) (thr : Int) :
    ∀ x y : Int, boundaryPad img bg thr x y = boundaryPad img2 bg thr x y := by
  intro x y
  unfold boundaryPad
  rw [h.1, h.2.1]
  split
  · exact boundary_mask_congr img img2 h bg thr _ _
  · rfl

/-- The dilated boundary mask only reads the RGB channels and the
dimensions. -/
theorem dilated_boundary_congr (img img2 : Image) (h : sameRGB img img2)
    (bg : Int × Int × Int) (thr : Int) (R : Nat) :
    ∀ x y : Nat, dilated_boundary img bg thr R x y = dilated_boundary img2 bg thr R x y := by
  intro x y
  unfold dilated_boundary
  simp only [boundaryPad_congr img img2 h bg thr, boundary_mask_congr img img2 h bg thr]

/-- The boundary color-similarity mask only reads the RGB channels. -/
theorem boundary_color_mask_congr (img img2 : Image) (h : sameRGB img img2)
    (bg : Int × Int × Int) (bThr : ℚ) :
    ∀ x y : Nat, boundary_color_mask img bg bThr x y = boundary_color_mask img2 bg bThr x y := by
  intro x y
  unfold boundary_color_mask
  rw [colorDiff_congr img img2 h bg x y]

/-- Claim C10: in the local masking path the output alpha of every pixel is a
function of the input RGB channels and the reference color alone — any source
alpha is discarded — and a pixel whose color differs from the reference by
more than the threshold in some channel gets alpha 255 from the masking stage
even if it was fully transparent in the source. -/
theorem c10_alpha_from_rgb (img img2 : Image) (bg : Int × Int × Int)
    (thr : Int) (bThr : ℚ) (R : Nat) :
    (sameRGB img img2 →
      ∀ x y : Nat,
        ((remove_background_color_core img bg thr bThr R).pix x y).a =
          ((remove_background_color_core img2 bg thr bThr R).pix x y).a) ∧
    (∀ x y : Nat, (img.pix x y).a = 0 →
      (thr < |((img.pix x y).r : Int) - bg.1| ∨
       thr < |((img.pix x y).g : Int) - bg.2.1| ∨
       thr < |((img.pix x y).b : Int) - bg.2.2|) →
      maskStageAlpha img bg thr x y = 255) := by
  constructor
  · intro h x y
    have e1 : ((remove_background_color_core img bg thr bThr R).pix x y).a =
        if dilated_boundary img bg thr R x y && boundary_color_mask img bg bThr x y &&
           is_foreground img bg thr x y
        then 0
        else maskStageAlpha img bg thr x y := rfl
    have e2 : ((remove_background_color_core img2 bg thr bThr R).pix x y).a =
        if dilated_boundary img2 bg thr R x y && boundary_color_mask img2 bg bThr x y &&
           is_foreground img2 bg thr x y
        then 0
        else maskStageAlpha img2 bg thr x y := rfl
    rw [e1, e2, dilated_boundary_congr img img2 h bg thr R x y,
        boundary_color_mask_congr img img2 h bg bThr x y,
        is_foreground_congr img img2 h bg thr x y]
    unfold maskStageAlpha
    rw [is_background_congr img img2 h bg thr x y]
  · intro x y _ hdiff
    unfold maskStageAlpha
    rw [if_neg]
    intro hbgt
    rcases (c1_mask_classification img bg thr x y).1.mp hbgt with ⟨h1, h2, h3⟩
    rcases hdiff with h4 | h4 | h4 <;> omega

/-- Claim C10 (witness): two 1 by 1 images with identical RGB but alpha 0 and
alpha 255 produce identical alpha under the full masking path, and the
transparent pixel, whose color is far from the white reference, gets alpha
255 from the masking stage. -/
theorem c10_alpha_from_rgb_witness :
    ((remove_background_color_core c10ImgA (255, 255, 255) 5 10 10).pix 0 0).a =
      ((remove_background_color_core c10ImgB (255, 255, 255) 5 10 10).pix 0 0).a ∧
    maskStageAlpha c10ImgA (255, 255, 255) 5 0 0 = 255 := by
  have h := c10_alpha_from_rgb c10ImgA c10ImgB (255, 255, 255) 5 10 10
  exact ⟨h.1 ⟨rfl, rfl, fun x y => ⟨rfl, rfl, rfl⟩⟩ 0 0,
         h.2 0 0 rfl (Or.inl (by decide))⟩

/-- Python `int()` agrees with the floor on nonnegative values. -/
theorem int_trunc_of_nonneg (q : ℚ) (h : 0 ≤ q) : int_trunc q = ⌊q⌋ := by
  unfold int_trunc
  rw [if_neg (not_lt.mpr h)]

/-- Python `int()` of a nonpositive value is nonpositive. -/
theorem int_trunc_nonpos (q : ℚ) (h : q ≤ 0) : int_trunc q ≤ 0 := by
  unfold int_trunc
  split
  · calc ⌈q⌉ ≤ ⌈(0 : ℚ)⌉ := Int.ceil_le_ceil h
      _ = 0 := Int.ceil_zero
  · calc ⌊q⌋ ≤ ⌊(0 : ℚ)⌋ := Int.floor_le_floor h
      _ = 0 := Int.floor_zero

/-- Claim C4: for margin ratio in `[0, 1)`, positive canvas sizes and a
non-empty cropped foreground, the resized dimensions never exceed the canvas
on either axis, and on the limiting axis the resized dimension equals the
floor of `canvasDimension * (1 - marginRatio)`. -/
theorem c4_scale_fits (mr : ℚ) (cw ch : Int) (fw fh : Nat)
    (hm0 : 0 ≤ mr) (hm1 : mr < 1) (hcw : 0 < cw) (hch : 0 < ch)
    (hfw : 0 < fw) (hfh : 0 < fh) :
    resized_dim fw (fit_scale mr cw ch fw fh) ≤ cw ∧
    resized_dim fh (fit_scale mr cw ch fw fh) ≤ ch ∧
    ((cw : ℚ) * (1 - mr) / fw ≤ (ch : ℚ) * (1 - mr) / fh →
      resized_dim fw (fit_scale mr cw ch fw fh) = ⌊(cw : ℚ) * (1 - mr)⌋) ∧
    ((ch : ℚ) * (1 - mr) / fh ≤ (cw : ℚ) * (1 - mr) / fw →
      resized_dim fh (fit_scale mr cw ch fw fh) = ⌊(ch : ℚ) * (1 - mr)⌋) := by
  have h1m : (0 : ℚ) < 1 - mr := by linarith
  have hfwQ : (0 : ℚ) < (fw : ℚ) := by exact_mod_cast hfw
  have hfhQ : (0 : ℚ) < (fh : ℚ) := by exact_mod_cast hfh
  have hcwQ : (0 : ℚ) < (cw : ℚ) := by exact_mod_cast hcw
  have hchQ : (0 : ℚ) < (ch : ℚ) := by exact_mod_cast hch
  have hsw : (0 : ℚ) ≤ (cw : ℚ) * (1 - mr) / fw := by positivity
  have hsh : (0 : ℚ) ≤ (ch : ℚ) * (1 - mr) / fh := by positivity
  have hs0 : (0 : ℚ) ≤ fit_scale mr cw ch fw fh := le_min hsw hsh
  have hcancel_w : (fw : ℚ) * ((cw : ℚ) * (1 - mr) / fw) = (cw : ℚ) * (1 - mr) := by
    field_simp
  have hcancel_h : (fh : ℚ) * ((ch : ℚ) * (1 - mr) / fh) = (ch : ℚ) * (1 - mr) := by
    field_simp
  have hbw : resized_dim fw (fit_scale mr cw ch fw fh) ≤ cw := by
    unfold resized_dim
    rw [int_trunc_of_nonneg _ (by positivity)]
    have hle : (fw : ℚ) * fit_scale mr cw ch fw fh ≤ (cw : ℚ) := by
      calc (fw : ℚ) * fit_scale mr cw ch fw fh
          ≤ (fw : ℚ) * ((cw : ℚ) * (1 - mr) / fw) :=
            mul_le_mul_of_nonneg_left (min_le_left _ _) hfwQ.le
        _ = (cw : ℚ) * (1 - mr) := hcancel_w
        _ ≤ (cw : ℚ) * 1 := by
            apply mul_le_mul_of_nonneg_left (by linarith) hcwQ.le
        _ = (cw : ℚ) := mul_one _
    calc ⌊(fw : ℚ) * fit_scale mr cw ch fw fh⌋ ≤ ⌊(cw : ℚ)⌋ := Int.floor_le_floor hle
      _ = cw := Int.floor_intCast cw
  have hbh : resized_dim fh (fit_scale mr cw ch fw fh) ≤ ch := by
    unfold resized_dim
    rw [int_trunc_of_nonneg _ (by positivity)]
    have hle : (fh : ℚ) * fit_scale mr cw ch fw fh ≤ (ch : ℚ) := by
      calc (fh : ℚ) * fit_scale mr cw ch fw fh
          ≤ (fh : ℚ) * ((ch : ℚ) * (1 - mr) / fh) :=
            mul_le_mul_of_nonneg_left (min_le_right _ _) hfhQ.le
        _ = (ch : ℚ) * (1 - mr) := hcancel_h
        _ ≤ (ch : ℚ) * 1 := by
            apply mul_le_mul_of_nonneg_left (by linarith) hchQ.le
        _ = (ch : ℚ) := mul_one _
    calc ⌊(fh : ℚ) * fit_scale mr cw ch fw fh⌋ ≤ ⌊(ch : ℚ)⌋ := Int.floor_le_floor hle
      _ = ch := Int.floor_intCast ch
  refine ⟨hbw, hbh, ?_, ?_⟩
  · intro hlim
    unfold resized_dim
    rw [int_trunc_of_nonneg _ (by positivity)]
    unfold fit_scale
    rw [min_eq_left hlim, hcancel_w]
  · intro hlim
    unfold resized_dim
    rw [int_trunc_of_nonneg _ (by positivity)]
    unfold fit_scale
    rw [min_eq_right hlim, hcancel_h]

/-- Claim C4 (witness): the spec scenario — a 10 by 10 foreground on a
100 by 100 canvas with margin ratio 1/10 resizes to 90, which does not exceed
the canvas and equals the floor of `100 * (1 - 1/10)`. -/
theorem c4_scale_fits_witness :
    resized_dim 10 (fit_scale (1 / 10) 100 100 10 10) ≤ 100 ∧
    resized_dim 10 (fit_scale (1 / 10) 100 100 10 10) = ⌊(100 : ℚ) * (1 - 1 / 10)⌋ := by
  have h := c4_scale_fits (1 / 10) 100 100 10 10 (by norm_num) (by norm_num)
    (by norm_num) (by norm_num) (by norm_num) (by norm_num)
  exact ⟨h.1, h.2.2.1 (le_refl _)⟩

/-- On any successful run whose input has a bounding box, the compositor
output dimensions are exactly the requested (or source) dimensions. -/
theorem scale_foreground_ok_dims (img : Image) (mr : ℚ) (osz : Option (Int × Int))
    (hbb : get_foreground_bbox img ≠ none)
    (hok : isOkE (scale_foreground img mr osz) = true) :
    okDims (scale_foreground img mr osz) =
      some ((requestW img osz).toNat, (requestH img osz).toNat) := by
  by_cases hneg : requestW img osz < 0 ∨ requestH img osz < 0
  · exfalso
    have he : scale_foreground img mr osz = Except.error PilFailure.valueError := by
      unfold scale_foreground
      rw [if_pos hneg]
    rw [he] at hok
    simp [isOkE] at hok
  · rcases hb : get_foreground_bbox img with _ | ⟨l, t, r, b⟩
    · exact absurd hb hbb
    · by_cases hsz : resized_dim (r - l) (scale_of img mr osz l t r b) ≤ 0 ∨
          resized_dim (b - t) (scale_of img mr osz l t r b) ≤ 0
      · exfalso
        have he : scale_foreground img mr osz = Except.error PilFailure.valueError := by
          unfold scale_foreground
          rw [if_neg hneg, hb]
          dsimp only
          rw [if_pos hsz]
        rw [he] at hok
        simp [isOkE] at hok
      · unfold scale_foreground
        rw [if_neg hneg, hb]
        dsimp only
        rw [if_neg hsz]
        rfl

/-- Claim C3 (amended): on every successful run whose input has at least one
nonzero-alpha pixel, the returned buffer has dimensions exactly the requested
size (or the source size when no size is supplied); when the input has no
nonzero-alpha pixel, the input buffer itself — with its own dimensions — is
returned unmodified. -/
theorem c3_output_dims (img : Image) (mr : ℚ) (ow oh : Int)
    (hbb : get_foreground_bbox img ≠ none)
    (hok1 : isOkE (scale_foreground img mr (some (ow, oh))) = true)
    (hok2 : isOkE (scale_foreground img mr none) = true) :
    okDims (scale_foreground img mr (some (ow, oh))) = some (ow.toNat, oh.toNat) ∧
    okDims (scale_foreground img mr none) = some (img.width, img.height) ∧
    (∀ (img2 : Image) (mr2 : ℚ), get_foreground_bbox img2 = none →
      scale_foreground img2 mr2 none = Except.ok img2) ∧
    (∀ (img2 : Image) (mr2 : ℚ) (a2 b2 : Int), get_foreground_bbox img2 = none →
      0 ≤ a2 → 0 ≤ b2 → scale_foreground img2 mr2 (some (a2, b2)) = Except.ok img2) := by
  refine ⟨?_, ?_, ?_, ?_⟩
  · have h := scale_foreground_ok_dims img mr (some (ow, oh)) hbb hok1
    simpa [requestW, requestH] using h
  · have h := scale_foreground_ok_dims img mr none hbb hok2
    simpa [requestW, requestH] using h
  · intro img2 mr2 h2
    have hneg : ¬(requestW img2 none < 0 ∨ requestH img2 none < 0) := by
      simp [requestW, requestH]
    unfold scale_foreground
    rw [if_neg hneg, h2]
  · intro img2 mr2 a2 b2 h2 ha hb
    have hneg : ¬(requestW img2 (some (a2, b2)) < 0 ∨ requestH img2 (some (a2, b2)) < 0) := by
      simp only [requestW, requestH, Option.getD_some]
      omega
    unfold scale_foreground
    rw [if_neg hneg, h2]

/-- Claim C3 (witness for the amended theorem): a 2 by 2 opaque image
composited with requested size 3 by 3 yields a 3 by 3 buffer, and with no
requested size a 2 by 2 buffer. -/
theorem c3_output_dims_witness :
    okDims (scale_foreground c3wImg (1 / 10) (some (3, 3))) = some (3, 3) ∧
    okDims (scale_foreground c3wImg (1 / 10) none) = some (2, 2) := by
  have h := c3_output_dims c3wImg (1 / 10) 3 3 (by decide)
    (by with_unfolding_all decide) (by with_unfolding_all decide)
  exact ⟨h.1, by simpa [c3wImg] using h.2.1⟩

/-- Claim C3 (counterexample): a fully transparent 1 by 1 input with requested
size 2 by 2 is returned unmodified, so the returned buffer has width 1, not
the requested 2. -/
theorem c3_counterexample :
    scale_foreground c3Img (1 / 10) (some (2, 2)) = Except.ok c3Img ∧
    c3Img.width ≠ 2 := by
  constructor
  · with_unfolding_all rfl
  · decide

/-- Claim C9 (amended): the compositor performs no canvas-size validation and
never produces a `dimensionMismatch` failure.  A negative requested dimension
fails at canvas creation with the PIL ValueError; a zero requested width on an
input with a bounding box proceeds through the scale computation (which yields
a non-positive scale) and only fails afterwards, at the resize, again with the
PIL ValueError. -/
theorem c9_no_dimension_check (img : Image) (mr : ℚ) (ow oh : Int) :
    (∀ osz : Option (Int × Int),
      scale_foreground img mr osz ≠ Except.error PilFailure.dimensionMismatch) ∧
    ((ow < 0 ∨ oh < 0) →
      scale_foreground img mr (some (ow, oh)) = Except.error PilFailure.valueError) ∧
    (0 ≤ oh → get_foreground_bbox img ≠ none →
      scale_foreground img mr (some (0, oh)) = Except.error PilFailure.valueError) := by
  refine ⟨?_, ?_, ?_⟩
  · intro osz
    unfold scale_foreground
    split
    · simp
    · split
      · simp
      · split
        · simp
        · simp
  · intro h
    unfold scale_foreground
    rw [if_pos (show requestW img (some (ow, oh)) < 0 ∨ requestH img (some (ow, oh)) < 0 by
      simpa [requestW, requestH] using h)]
  · intro hoh hbb
    rcases hb : get_foreground_bbox img with _ | ⟨l, t, r, b⟩
    · exact absurd hb hbb
    · have hneg : ¬(requestW img (some ((0 : Int), oh)) < 0 ∨
          requestH img (some ((0 : Int), oh)) < 0) := by
        simp only [requestW, requestH, Option.getD_some]
        omega
      have hscale : scale_of img mr (some ((0 : Int), oh)) l t r b ≤ 0 := by
        unfold scale_of fit_scale
        simp only [requestW, requestH, Option.getD_some]
        have hz : (((0 : Int) : ℚ)) * (1 - mr) / ((r - l : Nat) : ℚ) = 0 := by
          norm_num
        exact le_trans (min_le_left _ _) (le_of_eq hz)
      have hsz : resized_dim (r - l) (scale_of img mr (some ((0 : Int), oh)) l t r b) ≤ 0 := by
        unfold resized_dim
        apply int_trunc_nonpos
        exact mul_nonpos_of_nonneg_of_nonpos (by positivity) hscale
      unfold scale_foreground
      rw [if_neg hneg, hb]
      dsimp only
      rw [if_pos (Or.inl hsz)]

/-- Claim C9 (witness for the amended theorem): on a 1 by 1 opaque image, a
requested size of 0 by 5 does not produce a `dimensionMismatch`; both a
negative and a zero width produce the PIL ValueError instead. -/
theorem c9_no_dimension_check_witness :
    scale_foreground c9Img (1 / 10) (some (0, 5)) ≠ Except.error PilFailure.dimensionMismatch ∧
    scale_foreground c9Img (1 / 10) (some (-1, 5)) = Except.error PilFailure.valueError ∧
    scale_foreground c9Img (1 / 10) (some (0, 5)) = Except.error PilFailure.valueError := by
  have h := c9_no_dimension_check c9Img (1 / 10) (-1) 5
  exact ⟨h.1 (some (0, 5)), h.2.1 (Or.inl (by norm_num)), h.2.2 (by norm_num) (by decide)⟩

/-- Claim C9 (counterexample): with a zero requested width the compositor does
not fail fast with the distinct typed `dimensionMismatch`; it proceeds through
the scale computation and fails at the resize with the PIL ValueError. -/
theorem c9_counterexample :
    scale_foreground c9Img (1 / 10) (some (0, 5)) = Except.error PilFailure.valueError ∧
    PilFailure.valueError ≠ PilFailure.dimensionMismatch := by
  constructor
  · with_unfolding_all rfl
  · decide
